import Mathlib

/-!
Verification of the position-resolution and semantic-indexing subsystem of the
powdr-lsp language server (src/analyzer.rs, src/symbol.rs, src/hover/mod.rs,
src/main.rs), as a shallow embedding in Lean.

Modelling conventions:
* Source text is a list of characters (`Text`).  The Rust code indexes byte
  slices of UTF-8 strings; the embedding identifies bytes with characters,
  which is exact for ASCII texts (all texts appearing in the claims are ASCII).
* Rust `usize` indices become `Nat`; the code never subtracts below zero on the
  paths modelled here.
* External collaborator types from `powdr_ast` (symbol paths, machine trees and
  their `Display` implementations) are modelled structurally: an absolute
  symbol path is its list of segments, `Display` joins segments with `::`
  (with a leading `::` for absolute paths), `relative_to(default)` drops the
  leading `::`, `pop` returns the last segment.
* Log/trace message strings produced by the analyzer are dropped: they carry
  no data consumed by any other component.
-/

namespace PowdrLsp

/-- Source text, one entry per byte (ASCII identification, see header). -/
abbrev Text := List Char

/-- Rust: `pub type Span = Range<usize>` (src/span.rs).  `stop` models the
range field `end` (a Lean keyword). -/
structure Span where
  start : Nat
  stop : Nat
deriving DecidableEq, Repr

/-- The substring of `text` delimited by byte offsets `[s, e)`
(Rust slice `text[s..e]`). -/
def extractSpan (text : Text) (s e : Nat) : Text :=
  (text.drop s).take (e - s)

/-- Rust `self.text.as_bytes()[i] as char`; the default is irrelevant because
every use in the embedding is guarded by a bounds check, as in the source. -/
def charAt (text : Text) (i : Nat) : Char :=
  text.getD i ' '

/-- Rust: `fn is_identifier_char(c: char) -> bool` (src/analyzer.rs and
src/hover/mod.rs, identical definitions):
`c.is_alphanumeric() || c == '_' || c == ':'`. -/
def is_identifier_char (c : Char) : Bool :=
  c.isAlphanum || c == '_' || c == ':'

/-- Whether the literal string `pat` occurs in `text` at offset `i`. -/
def matchesAt (text pat : Text) (i : Nat) : Bool :=
  (text.drop i).take pat.length == pat

/-- Rust `self.text[search_pos..].find(symbol)`, returning the absolute offset
of the leftmost occurrence at or after `start`. -/
def findFrom (text pat : Text) (start : Nat) : Option Nat :=
  (List.range' start (text.length + 1 - start)).find? (matchesAt text pat)

/-- Offset of the last `'\n'` strictly before the end of `l`, if any
(Rust `str::rfind('\n')` on a prefix slice). -/
def rfindChar (l : Text) (c : Char) : Option Nat :=
  match l with
  | [] => none
  | a :: rest =>
    match rfindChar rest c with
    | some i => some (i + 1)
    | none => if a = c then some 0 else none

/-- Rust: `self.text[..abs_start].rfind('\n').unwrap_or(0)`
(src/analyzer.rs line 87). -/
def lineStartOf (text : Text) (absStart : Nat) : Nat :=
  (rfindChar (text.take absStart) '\n').getD 0

/-- Rust: `line_content.trim_start().starts_with("//")` where `line_content`
is `self.text[line_start..abs_start]` (src/analyzer.rs lines 87-89). -/
def isInCommentAt (text : Text) (absStart : Nat) : Bool :=
  ((extractSpan text (lineStartOf text absStart) absStart).dropWhile
    Char.isWhitespace).take 2 == "//".data

/-- The scanning loop of `PositionTracker::find_symbol_positions`
(src/analyzer.rs lines 76-108).  `fuel` bounds the number of loop iterations;
`text.length + 1` iterations always suffice for a non-empty `pat` because
`search_pos` strictly increases (the Rust loop does not terminate when called
with an empty symbol name, a case that never arises from the analyzers). -/
def collectSpans (text pat : Text) : Nat → Nat → List Span
  | _, 0 => []
  | searchPos, fuel + 1 =>
    match findFrom text pat searchPos with
    | none => []
    | some absStart =>
      let absEnd := absStart + pat.length
      let is_valid_start :=
        absStart == 0 || !is_identifier_char (charAt text (absStart - 1))
      let is_valid_end :=
        decide (text.length ≤ absEnd) || !is_identifier_char (charAt text absEnd)
      let is_in_comment := isInCommentAt text absStart
      let rest := collectSpans text pat absEnd fuel
      if !is_in_comment && is_valid_start && is_valid_end then
        ⟨absStart, absEnd⟩ :: rest
      else
        rest

/-- Rust: `struct PositionTracker` (src/analyzer.rs lines 23-26). -/
structure PositionTracker where
  text : Text
  current_pos : Nat
deriving DecidableEq, Repr

/-- Rust: `PositionTracker::new` (src/analyzer.rs lines 29-34). -/
def PositionTracker.new (text : Text) : PositionTracker :=
  ⟨text, 0⟩

/-- Rust: `PositionTracker::find_symbol_positions` (src/analyzer.rs lines
65-117).  The local variable `search_pos` starts at `self.current_pos` and is
advanced only locally; the method never assigns `self.current_pos`, so the
returned tracker is the input tracker (log messages dropped). -/
def find_symbol_positions (t : PositionTracker) (symbol : Text) :
    List Span × PositionTracker :=
  (collectSpans t.text symbol t.current_pos (t.text.length + 1), t)

/-- All valid occurrences of `pat` in `text` scanning from offset 0 (a
document pass starts with `current_pos = 0`, and `current_pos` is never
modified afterwards). -/
def locateFromStart (text pat : Text) : List Span :=
  collectSpans text pat 0 (text.length + 1)

/-! ## Symbol model (src/symbol.rs) -/

/-- Rust: `pub enum SymbolKind` (src/symbol.rs lines 8-16). -/
inductive SymbolKind where
  | Machine
  | Callable
  | Register
  | Definition
  | Public
  | Intermediate
  | TraitImpl
deriving DecidableEq, Repr

/-- Rust: `pub struct DegreeInfo` (src/symbol.rs lines 37-40); the `u64`
bounds are modelled as `Nat`. -/
structure DegreeInfo where
  min : Option Nat
  max : Option Nat
deriving DecidableEq, Repr

/-- Rust: `pub enum SymbolDetails` (src/symbol.rs lines 26-34).  The declared
`Callable` payload in src/symbol.rs is `{ symbol: String }`, but the only
construction sites (src/analyzer.rs lines 166-181 and 189-204) build
`Callable { inputs, outputs }`; the embedding follows the construction sites,
which the claims cite. -/
inductive SymbolDetails where
  | Machine (degree : Option DegreeInfo)
  | Register (type_info : Text)
  | Callable (inputs outputs : Text)
  | Definition
  | Public
  | Intermediate
  | TraitImpl
deriving DecidableEq, Repr

/-- Rust: `pub struct Symbol` (src/symbol.rs lines 18-23). -/
structure Symbol where
  kind : SymbolKind
  span : Span
  name : Text
  details : SymbolDetails
deriving DecidableEq, Repr

/-- Rust: `pub struct SemanticIndex` (src/symbol.rs lines 52-55).  `symbols`
is a `HashMap<SymbolId, Symbol>` whose keys are assigned as `symbols.len()`
at insertion, i.e. the sequential ids `0, 1, ...`; the map is therefore
modelled as the list of symbols in id order.  The companion
`range_index : Lapper<usize, SymbolId>` stores exactly each id's span and is
recoverable from the list, so it is not represented separately. -/
structure SemanticIndex where
  symbols : List Symbol
deriving DecidableEq, Repr

/-- Rust: `SemanticIndex::new` (src/symbol.rs lines 58-63). -/
def SemanticIndex.new : SemanticIndex :=
  ⟨[]⟩

/-- Rust: `SemanticIndex::add_symbol` (src/symbol.rs lines 65-74): the new id
is the current number of symbols, and the symbol is stored under it (and its
span inserted into the interval structure tagged with it). -/
def SemanticIndex.add_symbol (idx : SemanticIndex) (s : Symbol) : SemanticIndex :=
  ⟨idx.symbols ++ [s]⟩

theorem sanity_locate_simple :
    locateFromStart "machine Main".data "Main".data = [⟨8, 12⟩] := by decide

theorem sanity_locate_comment :
    locateFromStart "// Main\nmachine Main".data "Main".data = [⟨16, 20⟩] := by decide

/-! ## The analyzed entity tree (external collaborator `powdr_ast`)

The analyzers consume `AnalysisASMFile` / `Analyzed<T>` values produced by the
external powdr analyzer.  Only the data the analyzers read is modelled:
machine paths and per-machine degree/callables/registers for ASM, and the
names of definitions, public declarations, intermediate columns and trait
implementations for PIL (the analyzers never read the attached definitions, so
those are omitted; the PIL type parameter `T` plays no role in any read field
and is dropped). -/

/-- An `AbsoluteSymbolPath`: its list of `::`-separated segments. -/
abbrev Path := List Text

/-- Segments joined by `::`. -/
def joinPath (p : Path) : Text :=
  List.intercalate "::".data p

/-- Rust `name.relative_to(&AbsoluteSymbolPath::default()).to_string()`:
the path relative to the root, displayed without a leading `::`
(src/analyzer.rs line 130). -/
def relPathString (p : Path) : Text :=
  joinPath p

/-- Rust `name.to_string()` for an `AbsoluteSymbolPath`: displayed with a
leading `::` (src/analyzer.rs line 137). -/
def absPathString (p : Path) : Text :=
  "::".data ++ joinPath p

/-- Rust `name.clone().pop().unwrap()`: the last path segment
(src/analyzer.rs line 133; the unwrap panics on an empty path). -/
def shortName (p : Path) : Text :=
  p.getLast?.getD []

/-- A machine degree: optional min/max bound expressions.  Degree expressions
are modelled by their numeric value (the analyzers only convert or display
them). -/
structure MachineDegree where
  min : Option Nat
  max : Option Nat
deriving DecidableEq, Repr

/-- Rust: `impl From<MachineDegree> for DegreeInfo` (src/symbol.rs lines
42-49): the declared bounds are ignored and the placeholder values
`min = Some(8)`, `max = Some(10)` are returned (the source marks this with
`//TODO evaluate expr`). -/
def degreeInfoFromMachineDegree (_d : MachineDegree) : DegreeInfo :=
  ⟨some 8, some 10⟩

/-- A callable's symbol: plain function or hardware operation, each carrying
parameter lists (each parameter modelled by its `to_string()` rendering). -/
inductive CallableSymbol where
  | Function (inputs outputs : List Text)
  | Operation (inputs outputs : List Text)
deriving DecidableEq, Repr

/-- A callable member of a machine: its name and symbol. -/
structure Callable where
  name : Text
  symbol : CallableSymbol
deriving DecidableEq, Repr

/-- A register declaration: its name and its type's `to_string()` rendering. -/
structure Register where
  name : Text
  ty : Text
deriving DecidableEq, Repr

/-- A machine: its degree, callables and registers (the fields read by
`analyze_asm`). -/
structure Machine where
  degree : MachineDegree
  callable : List Callable
  registers : List Register
deriving DecidableEq, Repr

/-- An `AnalysisASMFile`, exposed through its `machines()` iterator: the
(absolute path, machine) items in iteration order. -/
structure AnalysisASMFile where
  machines : List (Path × Machine)
deriving DecidableEq, Repr

/-- A PIL `Analyzed<T>` value, exposed through the four collections
`analyze_pil` iterates: names of definitions, public declarations,
intermediate columns, and trait implementations (for trait implementations,
`timpl.name.to_string()`). -/
structure Analyzed where
  definitions : List Text
  public_declarations : List Text
  intermediate_columns : List Text
  trait_impls : List Text
deriving DecidableEq, Repr

/-- Rust: `pub enum AnalyzedDoc<T>` (src/parser/mod.rs lines 69-73). -/
inductive AnalyzedDoc where
  | ASM (asm : AnalysisASMFile)
  | PIL (pil : Analyzed)
deriving DecidableEq, Repr

/-! ## The symbol extractor (src/analyzer.rs) -/

/-- Comma-joined parameter renderings
(Rust `params.iter().map(|p| p.to_string()).collect::<Vec<_>>().join(", ")`,
src/analyzer.rs lines 167-204). -/
def joinComma (l : List Text) : Text :=
  List.intercalate ", ".data l

/-- The `SymbolDetails` built for a callable: both the `Function` and the
`Operation` arm of the match in src/analyzer.rs lines 160-207 build the same
detail shape from the respective parameter lists. -/
def callableDetails (c : Callable) : SymbolDetails :=
  match c.symbol with
  | .Function inputs outputs => .Callable (joinComma inputs) (joinComma outputs)
  | .Operation inputs outputs => .Callable (joinComma inputs) (joinComma outputs)

/-- The two Machine symbols added per located span of a machine's
fully-qualified name: one under `name.to_string()` and one under the short
name, both at the same span (src/analyzer.rs lines 134-153). -/
def machineSpanSymbols (p : Path) (m : Machine) (sp : Span) : List Symbol :=
  [⟨.Machine, sp, absPathString p, .Machine (some (degreeInfoFromMachineDegree m.degree))⟩,
   ⟨.Machine, sp, shortName p, .Machine (some (degreeInfoFromMachineDegree m.degree))⟩]

/-- Successive `add_symbol` calls. -/
def addSymbols (idx : SemanticIndex) (syms : List Symbol) : SemanticIndex :=
  syms.foldl SemanticIndex.add_symbol idx

/-- Loop body for one machine of `analyze_asm` (src/analyzer.rs lines
128-226): locate the fully-qualified name, add the two Machine symbols per
span, then per callable and per register locate the name and add one symbol
per span.  The single `PositionTracker` is threaded through every call, as in
the source. -/
def processMachine (st : SemanticIndex × PositionTracker) (pm : Path × Machine) :
    SemanticIndex × PositionTracker :=
  let (spans, tr1) := find_symbol_positions st.2 (relPathString pm.1)
  let idx1 := spans.foldl
    (fun idx sp => addSymbols idx (machineSpanSymbols pm.1 pm.2 sp)) st.1
  let (idx2, tr2) := pm.2.callable.foldl
    (fun (acc : SemanticIndex × PositionTracker) c =>
      let (sps, tr') := find_symbol_positions acc.2 c.name
      (sps.foldl (fun idx sp => idx.add_symbol ⟨.Callable, sp, c.name, callableDetails c⟩)
        acc.1, tr'))
    (idx1, tr1)
  let (idx3, tr3) := pm.2.registers.foldl
    (fun (acc : SemanticIndex × PositionTracker) r =>
      let (sps, tr') := find_symbol_positions acc.2 r.name
      (sps.foldl (fun idx sp => idx.add_symbol ⟨.Register, sp, r.name, .Register r.ty⟩)
        acc.1, tr'))
    (idx2, tr2)
  (idx3, tr3)

/-- Rust: `fn analyze_asm` (src/analyzer.rs lines 124-229); the returned log
messages are dropped, the built index is returned. -/
def analyze_asm (asm : AnalysisASMFile) (source_text : Text) : SemanticIndex :=
  (asm.machines.foldl processMachine
    (SemanticIndex.new, PositionTracker.new source_text)).1

/-- One pass of `analyze_pil` over a name collection, adding one symbol of
the given kind and details per located span. -/
def pilPass (kind : SymbolKind) (details : SymbolDetails)
    (st : SemanticIndex × PositionTracker) (name : Text) :
    SemanticIndex × PositionTracker :=
  let (sps, tr') := find_symbol_positions st.2 name
  (sps.foldl (fun idx sp => idx.add_symbol ⟨kind, sp, name, details⟩) st.1, tr')

/-- Rust: `fn analyze_pil` (src/analyzer.rs lines 230-293): definitions,
public declarations, intermediate columns, then trait implementations; log
messages dropped. -/
def analyze_pil (pil : Analyzed) (source_text : Text) : SemanticIndex :=
  let st0 := (SemanticIndex.new, PositionTracker.new source_text)
  let st1 := pil.definitions.foldl (pilPass .Definition .Definition) st0
  let st2 := pil.public_declarations.foldl (pilPass .Public .Public) st1
  let st3 := pil.intermediate_columns.foldl (pilPass .Intermediate .Intermediate) st2
  let st4 := pil.trait_impls.foldl (pilPass .TraitImpl .TraitImpl) st3
  st4.1

/-- Rust: `pub fn build_semantic_index` (src/analyzer.rs lines 10-22);
errors/log messages dropped. -/
def build_semantic_index (doc : AnalyzedDoc) (source_text : Text) : SemanticIndex :=
  match doc with
  | .ASM asm => analyze_asm asm source_text
  | .PIL pil => analyze_pil pil source_text

theorem sanity_analyze_asm :
    (analyze_asm ⟨[(["Main".data], ⟨⟨none, none⟩, [], []⟩)]⟩ "machine Main".data).symbols =
      [⟨.Machine, ⟨8, 12⟩, "::Main".data, .Machine (some ⟨some 8, some 10⟩)⟩,
       ⟨.Machine, ⟨8, 12⟩, "Main".data, .Machine (some ⟨some 8, some 10⟩)⟩] := by decide

/-! ## The hover resolver (src/hover/mod.rs)

`HoverProvider` holds the document text and analyzed tree (src/hover/mod.rs
lines 10-13); its two fields are passed explicitly below.  `get_hover` wraps
the rendered content into an LSP `Hover` markup value; the embedding returns
the rendered content itself, which is the only data in it. -/

/-- Rust `str::lines()`: split on `'\n'`, without a trailing empty line
(`\r` handling is irrelevant for the ASCII texts modelled here). -/
def rustLines (text : Text) : List Text :=
  let l := text.splitOn '\n'
  if l.getLast? = some [] then l.dropLast else l

/-- Rust: `HoverProvider::get_word_at_position` (src/hover/mod.rs lines
35-64): select the position's line, require the column to lie strictly inside
it on an identifier character, and extend left and right over identifier
characters. -/
def get_word_at_position (text : Text) (line character : Nat) :
    Option (Text × Nat × Nat) :=
  match (rustLines text).get? line with
  | none => none
  | some lineT =>
    if character ≥ lineT.length then
      none
    else
      match lineT.get? character with
      | none => none
      | some char_at_position =>
        if !is_identifier_char char_at_position then
          none
        else
          let start := ((lineT.take character).reverse.takeWhile is_identifier_char).length
          let stop := ((lineT.drop character).takeWhile is_identifier_char).length
          let initial_start := character - start
          let initial_end := character + stop
          some (extractSpan lineT initial_start initial_end, initial_start, initial_end)

/-- Rust: `enum TokenType` (src/hover/mod.rs lines 15-23). -/
inductive TokenType where
  | Machine
  | Callable
  | Register
  | Definition
  | Public
  | Intermediate
  | TraitImpl
deriving DecidableEq, Repr

/-- Rust: `struct Token` (src/hover/mod.rs lines 25-28); the
`HashMap<String, String>` of values is modelled as an association list with
distinct keys (every construction site supplies distinct keys). -/
structure Token where
  token_type : TokenType
  values : List (Text × Text)
deriving DecidableEq, Repr

/-- Rust `HashMap::get` on a token's value list: first entry with the key. -/
def vGet (values : List (Text × Text)) (key : Text) : Option Text :=
  match values with
  | [] => none
  | (k, v) :: rest => if k = key then some v else vGet rest key

/-- Rust `parse_absolute_path(&format!("::{}", word))` (src/hover/mod.rs line
77): the word split on `::` into path segments. -/
def splitPath (w : Text) : List Text :=
  go w (w.length + 1)
where
  /-- Split on the leftmost `::`, recursing on the remainder (fuel-bounded;
  each step consumes at least two characters). -/
  go (w : Text) : Nat → List Text
    | 0 => [w]
    | fuel + 1 =>
      match findFrom w "::".data 0 with
      | none => [w]
      | some i => w.take i :: go (w.drop (i + 2)) fuel

/-- Debug rendering of a callable symbol
(Rust `format!("{:?}", function.symbol)`, src/hover/mod.rs line 117).  The
exact Rust `Debug` output is immaterial: no other code reads this value. -/
def callableSymbolDebug (c : CallableSymbol) : Text :=
  match c with
  | .Function inputs outputs =>
      "Function(".data ++ joinComma inputs ++ "; ".data ++ joinComma outputs ++ ")".data
  | .Operation inputs outputs =>
      "Operation(".data ++ joinComma inputs ++ "; ".data ++ joinComma outputs ++ ")".data

/-- Rust: `HoverProvider::get_token_from_asm` (src/hover/mod.rs lines
75-139): a machine token for a machine at path `::word`, else a callable
token for a callable named `word`, else a register token. -/
def get_token_from_asm (analyzed : AnalysisASMFile) (word : Text) : Option Token :=
  let machine_token := (analyzed.machines.find?
      (fun pm => pm.1 == splitPath word)).map
    (fun pm =>
      let degree_values : List (Text × Text) :=
        match pm.2.degree.min, pm.2.degree.max with
        | some mn, some mx =>
          if mn == mx then
            [("degree".data, (toString mn).data)]
          else
            [("degree_min".data, (toString mn).data),
             ("degree_max".data, (toString mx).data)]
        | some v, none => [("degree".data, (toString v).data)]
        | none, some v => [("degree".data, (toString v).data)]
        | none, none => []
      ⟨TokenType.Machine, ("name".data, word) :: degree_values⟩)
  let instruction_token := analyzed.machines.findSome?
    (fun pm =>
      (pm.2.callable.find? (fun c => c.name == word)).map
        (fun c =>
          ⟨TokenType.Callable,
           [("name".data, word), ("symbol".data, callableSymbolDebug c.symbol)]⟩))
  let register_token := analyzed.machines.findSome?
    (fun pm =>
      (pm.2.registers.find? (fun r => r.name == word)).map
        (fun r => ⟨TokenType.Register, [("name".data, word), ("type".data, r.ty)]⟩))
  (machine_token.or instruction_token).or register_token

/-- Rust: `HoverProvider::get_token_from_pil` (src/hover/mod.rs lines
141-168): definition, else public declaration, else intermediate column, else
trait implementation, each matched by name. -/
def get_token_from_pil (analyzed : Analyzed) (word : Text) : Option Token :=
  let definition := if word ∈ analyzed.definitions then
    some (⟨TokenType.Definition, [("name".data, word)]⟩ : Token) else none
  let pub_decl := if word ∈ analyzed.public_declarations then
    some (⟨TokenType.Public, [("name".data, word)]⟩ : Token) else none
  let intermediate := if word ∈ analyzed.intermediate_columns then
    some (⟨TokenType.Intermediate, [("name".data, word)]⟩ : Token) else none
  let trait_impl := if word ∈ analyzed.trait_impls then
    some (⟨TokenType.TraitImpl, [("name".data, word)]⟩ : Token) else none
  ((definition.or pub_decl).or intermediate).or trait_impl

/-- Rust: `HoverProvider::get_token_at_position` (src/hover/mod.rs lines
66-73). -/
def get_token_at_position (text : Text) (analyzed : AnalyzedDoc)
    (line character : Nat) : Option Token :=
  (get_word_at_position text line character).bind
    (fun w =>
      match analyzed with
      | .ASM asm => get_token_from_asm asm w.1
      | .PIL pil => get_token_from_pil pil w.1)

/-- Rust: `HoverProvider::get_hover_content` (src/hover/mod.rs lines
170-282): kind-specific markdown text. -/
def get_hover_content (token : Token) : Text :=
  let name := (vGet token.values "name".data).getD []
  match token.token_type with
  | .Machine =>
    let degree_text :=
      match vGet token.values "degree".data with
      | some degree => degree
      | none =>
        match vGet token.values "degree_min".data, vGet token.values "degree_max".data with
        | some mn, some mx => " Min:".data ++ mn ++ ", Max:".data ++ mx
        | _, _ => []
    "### Machine\n\n\nName: ".data ++ name ++ "\n\n".data ++
      (if degree_text.isEmpty then [] else "Degree: ".data ++ degree_text ++ "\n".data) ++
      "\n\n".data
  | .Callable => "### Instruction\n\n\nName: ".data ++ name ++ "\n\n\n".data
  | .Register =>
    let type_text :=
      match vGet token.values "type".data with
      | some v => "Type: ".data ++ v ++ "\n\n".data
      | none => []
    "### Register\n\n\nName: ".data ++ name ++ "\n\n".data ++ type_text ++ "\n\n".data
  | .Definition => "### Definition\n\n\nName: ".data ++ name ++ "\n\n\n\n".data
  | .Public => "### Public\n\n\nName: ".data ++ name ++ "\n\n\n\n".data
  | .Intermediate => "### Intermediate\n\n\nName: ".data ++ name ++ "\n\n\n\n".data
  | .TraitImpl => "### Trait Implementation\n\n\nName: ".data ++ name ++ "\n\n\n\n".data

/-- Rust: `HoverProvider::get_hover` (src/hover/mod.rs lines 283-295):
resolve the token at the position and render it (the LSP markup wrapper adds
no data and is omitted). -/
def get_hover (text : Text) (analyzed : AnalyzedDoc) (line character : Nat) :
    Option Text :=
  (get_token_at_position text analyzed line character).map get_hover_content

theorem sanity_hover_on_comment_word :
    (get_hover "// Main\nmachine Main".data
      (.ASM ⟨[(["Main".data], ⟨⟨none, none⟩, [], []⟩)]⟩) 0 3).isSome = true := by decide

theorem sanity_hover_whitespace :
    get_hover "// Main\nmachine Main".data
      (.ASM ⟨[(["Main".data], ⟨⟨none, none⟩, [], []⟩)]⟩) 1 7 = none := by decide

/-! ## The project cache (src/main.rs)

`ProjectCache` holds two `HashMap`s; both are modelled as association lists
with distinct keys (lookups take the first matching entry, insertions update
the first matching entry or append, so the model agrees with the hash map
whenever keys are distinct, which the operations preserve from the empty
initial cache). -/

/-- A document URI (`tower_lsp::lsp_types::Url`), modelled by its text. -/
abbrev Url := Text

/-- Rust: `struct ParsedDocument<T>` (src/main.rs lines 27-33). -/
structure ParsedDocument where
  analyzed : AnalyzedDoc
  text : Text
  version : Int
  semantic_index : SemanticIndex
deriving DecidableEq, Repr

/-- Rust: `struct ProjectCache<T>` (src/main.rs lines 35-39). -/
structure ProjectCache where
  documents : List (Url × ParsedDocument)
  symbol_locations : List (Text × List (Url × SymbolKind))
deriving DecidableEq, Repr

/-- Rust: `ProjectCache::new` (src/main.rs lines 42-47). -/
def ProjectCache.new : ProjectCache :=
  ⟨[], []⟩

/-- Rust `HashMap::get` on an association list: value of the first entry with the
key. -/
def aGet {β : Type} (m : List (Url × β)) (key : Url) : Option β :=
  match m with
  | [] => none
  | (k, v) :: rest => if k = key then some v else aGet rest key

/-- Rust `HashMap::insert` on an association list: replace the first entry with
the key, or append. -/
def aInsert {β : Type} (m : List (Url × β)) (key : Url) (v : β) :
    List (Url × β) :=
  match m with
  | [] => [(key, v)]
  | (k, w) :: rest => if k = key then (key, v) :: rest else (k, w) :: aInsert rest key v

/-- Rust `HashMap::remove` on an association list (used only as the ghost "live
contributions" map in the workspace-table characterization). -/
def aRemove {β : Type} (m : List (Url × β)) (key : Url) : List (Url × β) :=
  m.filter (fun e => decide (e.1 ≠ key))

/-- Rust `symbol_locations.get(name).cloned().unwrap_or_default()` on the
association-list model. -/
def slGet (m : List (Text × List (Url × SymbolKind))) (name : Text) :
    List (Url × SymbolKind) :=
  match m with
  | [] => []
  | (k, locs) :: rest => if k = name then locs else slGet rest name

/-- Rust `self.symbol_locations.entry(name).or_default().push(x)`
(src/main.rs lines 54-57): push onto the first entry with the key, or append
a new singleton entry. -/
def slPush (m : List (Text × List (Url × SymbolKind))) (name : Text)
    (x : Url × SymbolKind) : List (Text × List (Url × SymbolKind)) :=
  match m with
  | [] => [(name, [x])]
  | (k, locs) :: rest =>
    if k = name then (k, locs ++ [x]) :: rest else (k, locs) :: slPush rest name x

/-- The body of `remove_document_symbols` on the locations map: drop the
URI's entries from every location list (`retain` on each `Vec`), then drop
the keys whose list became empty (`retain` on the map). -/
def removeUriLocations (m : List (Text × List (Url × SymbolKind))) (uri : Url) :
    List (Text × List (Url × SymbolKind)) :=
  (m.map (fun e => (e.1, e.2.filter (fun loc => decide (loc.1 ≠ uri))))).filter
    (fun e => decide (e.2 ≠ []))

/-- Rust: `ProjectCache::remove_document_symbols` (src/main.rs lines 63-70):
drop the URI's entries from every location list, then drop the keys whose
list became empty.  The document table itself is not touched. -/
def remove_document_symbols (c : ProjectCache) (uri : Url) : ProjectCache :=
  { c with symbol_locations := removeUriLocations c.symbol_locations uri }

/-- Rust: `ProjectCache::update_document` (src/main.rs lines 49-61): purge
the URI's prior contributions, push one `(uri, kind)` entry per symbol of the
new index under the symbol's name, and store the document record. -/
def update_document (c : ProjectCache) (uri : Url) (doc : ParsedDocument) :
    ProjectCache :=
  let c1 := remove_document_symbols c uri
  { documents := aInsert c1.documents uri doc,
    symbol_locations :=
      doc.semantic_index.symbols.foldl
        (fun m sym => slPush m sym.name (uri, sym.kind)) c1.symbol_locations }

/-- Rust: `ProjectCache::get_symbol_locations` (src/main.rs lines 72-75). -/
def get_symbol_locations (c : ProjectCache) (name : Text) :
    List (Url × SymbolKind) :=
  slGet c.symbol_locations name

/-- A cache operation: a document upsert (`update_document`, as performed by
open / change / workspace scan) or a symbol removal
(`remove_document_symbols`). -/
inductive CacheOp where
  | upsert (uri : Url) (doc : ParsedDocument)
  | removeSyms (uri : Url)
deriving DecidableEq, Repr

/-- Apply one cache operation. -/
def applyOp (c : ProjectCache) : CacheOp → ProjectCache
  | .upsert uri doc => update_document c uri doc
  | .removeSyms uri => remove_document_symbols c uri

/-- Run a sequence of cache operations from a given cache. -/
def runOpsFrom (c : ProjectCache) : List CacheOp → ProjectCache
  | [] => c
  | op :: rest => runOpsFrom (applyOp c op) rest

/-- Run a sequence of cache operations from the initial empty cache. -/
def runOps (ops : List CacheOp) : ProjectCache :=
  runOpsFrom ProjectCache.new ops

/-- Ghost state for the workspace-table characterization: the documents whose
contributions are currently present, i.e. those upserted and not removed
since (a `removeSyms` drops the document's contributions without dropping its
record, so this differs from the document table). -/
def liveFrom (live : List (Url × ParsedDocument)) : List CacheOp → List (Url × ParsedDocument)
  | [] => live
  | .upsert uri doc :: rest => liveFrom (aInsert live uri doc) rest
  | .removeSyms uri :: rest => liveFrom (aRemove live uri) rest

/-- The live-contributions map of an operation sequence. -/
def liveDocs (ops : List CacheOp) : List (Url × ParsedDocument) :=
  liveFrom [] ops

/-! ## Soundness of the span locator -/

theorem findFrom_some {text pat : Text} {start i : Nat}
    (h : findFrom text pat start = some i) :
    matchesAt text pat i = true ∧ start ≤ i := by
  unfold findFrom at h
  exact ⟨List.find?_some h, (List.mem_range'_1.mp (List.mem_of_find?_eq_some h)).1⟩

theorem matchesAt_extract {text pat : Text} {i : Nat}
    (h : matchesAt text pat i = true) :
    extractSpan text i (i + pat.length) = pat := by
  unfold matchesAt at h
  unfold extractSpan
  rw [Nat.add_sub_cancel_left ..]
  simpa using h

/-- Every span produced by the scanning loop is a genuine occurrence of the
searched string at or after the scan start, respects the identifier-boundary
rules on both sides, and does not lie in a line comment. -/
theorem collectSpans_sound {text pat : Text} :
    ∀ {fuel searchPos : Nat} {sp : Span},
      sp ∈ collectSpans text pat searchPos fuel →
      sp.stop = sp.start + pat.length ∧
      extractSpan text sp.start sp.stop = pat ∧
      searchPos ≤ sp.start ∧
      (sp.start = 0 ∨ is_identifier_char (charAt text (sp.start - 1)) = false) ∧
      (text.length ≤ sp.stop ∨ is_identifier_char (charAt text sp.stop) = false) ∧
      isInCommentAt text sp.start = false := by
  intro fuel
  induction fuel with
  | zero => intro searchPos sp h; simp [collectSpans] at h
  | succ fuel ih =>
    intro searchPos sp h
    rw [collectSpans] at h
    rcases hf : findFrom text pat searchPos with _ | absStart
    · rw [hf] at h; simp at h
    · rw [hf] at h
      simp only at h
      obtain ⟨hmatch, hle⟩ := findFrom_some hf
      by_cases hcond :
          (!isInCommentAt text absStart &&
            ((absStart == 0 || !is_identifier_char (charAt text (absStart - 1))) &&
              (decide (text.length ≤ absStart + pat.length) ||
                !is_identifier_char (charAt text (absStart + pat.length))))) = true
      · rw [if_pos (by simpa [Bool.and_assoc] using hcond)] at h
        rcases List.mem_cons.mp h with rfl | hmem
        · refine ⟨rfl, matchesAt_extract hmatch, hle, ?_, ?_, ?_⟩
          · rcases Bool.and_eq_true .. |>.mp hcond with ⟨_, hrest⟩
            rcases Bool.and_eq_true .. |>.mp hrest with ⟨hstart, _⟩
            rcases Bool.or_eq_true .. |>.mp hstart with h0 | hnc
            · exact Or.inl (by simpa using h0)
            · exact Or.inr (by simpa using hnc)
          · rcases Bool.and_eq_true .. |>.mp hcond with ⟨_, hrest⟩
            rcases Bool.and_eq_true .. |>.mp hrest with ⟨_, hstop⟩
            rcases Bool.or_eq_true .. |>.mp hstop with hlen | hnc
            · exact Or.inl (by simpa using hlen)
            · exact Or.inr (by simpa using hnc)
          · rcases Bool.and_eq_true .. |>.mp hcond with ⟨hnc, _⟩
            simpa using hnc
        · obtain ⟨h1, h2, h3, h4, h5, h6⟩ := ih hmem
          exact ⟨h1, h2, le_trans hle (le_trans (Nat.le_add_right ..) h3), h4, h5, h6⟩
      · rw [if_neg (by simpa [Bool.and_assoc] using hcond)] at h
        obtain ⟨h1, h2, h3, h4, h5, h6⟩ := ih h
        exact ⟨h1, h2, le_trans hle (le_trans (Nat.le_add_right ..) h3), h4, h5, h6⟩

/-! ## The extractor's index contents -/

theorem addSymbols_symbols (idx : SemanticIndex) (syms : List Symbol) :
    (addSymbols idx syms).symbols = idx.symbols ++ syms := by
  induction syms generalizing idx with
  | nil => simp [addSymbols]
  | cons s rest ih =>
    show (addSymbols (idx.add_symbol s) rest).symbols = _
    rw [ih]
    simp [SemanticIndex.add_symbol]

theorem addSymbols_append (idx : SemanticIndex) (a b : List Symbol) :
    addSymbols idx (a ++ b) = addSymbols (addSymbols idx a) b := by
  simp [addSymbols, List.foldl_append]

theorem foldl_addSymbols_flat (f : Span → List Symbol) (spans : List Span)
    (idx : SemanticIndex) :
    spans.foldl (fun idx sp => addSymbols idx (f sp)) idx =
      addSymbols idx (spans.flatMap f) := by
  induction spans generalizing idx with
  | nil => simp [addSymbols]
  | cons sp rest ih =>
    simp only [List.foldl_cons, List.flatMap_cons, ih, addSymbols_append]

theorem foldl_add_symbol_map (g : Span → Symbol) (spans : List Span)
    (idx : SemanticIndex) :
    spans.foldl (fun idx sp => idx.add_symbol (g sp)) idx =
      addSymbols idx (spans.map g) := by
  induction spans generalizing idx with
  | nil => simp [addSymbols]
  | cons sp rest ih =>
    simp only [List.foldl_cons, List.map_cons, ih]
    rfl

/-- All symbols `analyze_asm` adds for one machine, in insertion order. -/
def machineAllSymbols (text : Text) (pm : Path × Machine) : List Symbol :=
  (locateFromStart text (relPathString pm.1)).flatMap (machineSpanSymbols pm.1 pm.2) ++
  pm.2.callable.flatMap (fun c => (locateFromStart text c.name).map
    (fun sp => ⟨.Callable, sp, c.name, callableDetails c⟩)) ++
  pm.2.registers.flatMap (fun r => (locateFromStart text r.name).map
    (fun sp => ⟨.Register, sp, r.name, .Register r.ty⟩))

theorem find_symbol_positions_new (text s : Text) :
    find_symbol_positions (PositionTracker.new text) s =
      (locateFromStart text s, PositionTracker.new text) := rfl

theorem callable_fold_eq (text : Text) (cs : List Callable) (idx : SemanticIndex) :
    cs.foldl
      (fun (acc : SemanticIndex × PositionTracker) c =>
        let (sps, tr') := find_symbol_positions acc.2 c.name
        (sps.foldl (fun idx sp => idx.add_symbol ⟨.Callable, sp, c.name, callableDetails c⟩)
          acc.1, tr'))
      (idx, PositionTracker.new text) =
    (addSymbols idx (cs.flatMap (fun c => (locateFromStart text c.name).map
      (fun sp => ⟨.Callable, sp, c.name, callableDetails c⟩))), PositionTracker.new text) := by
  induction cs generalizing idx with
  | nil => simp [addSymbols]
  | cons c rest ih =>
    simp only [List.foldl_cons, List.flatMap_cons, find_symbol_positions_new]
    rw [foldl_add_symbol_map, ih, addSymbols_append]

theorem register_fold_eq (text : Text) (rs : List Register) (idx : SemanticIndex) :
    rs.foldl
      (fun (acc : SemanticIndex × PositionTracker) r =>
        let (sps, tr') := find_symbol_positions acc.2 r.name
        (sps.foldl (fun idx sp => idx.add_symbol ⟨.Register, sp, r.name, .Register r.ty⟩)
          acc.1, tr'))
      (idx, PositionTracker.new text) =
    (addSymbols idx (rs.flatMap (fun r => (locateFromStart text r.name).map
      (fun sp => ⟨.Register, sp, r.name, .Register r.ty⟩))), PositionTracker.new text) := by
  induction rs generalizing idx with
  | nil => simp [addSymbols]
  | cons r rest ih =>
    simp only [List.foldl_cons, List.flatMap_cons, find_symbol_positions_new]
    rw [foldl_add_symbol_map, ih, addSymbols_append]

theorem processMachine_eq (text : Text) (idx : SemanticIndex) (pm : Path × Machine) :
    processMachine (idx, PositionTracker.new text) pm =
      (addSymbols idx (machineAllSymbols text pm), PositionTracker.new text) := by
  unfold processMachine
  simp only [find_symbol_positions_new]
  rw [foldl_addSymbols_flat, callable_fold_eq, register_fold_eq]
  simp [machineAllSymbols, addSymbols_append]

/-- The contents of the index built by `analyze_asm`: the per-machine symbol
lists, concatenated in machine order. -/
theorem analyze_asm_symbols (asm : AnalysisASMFile) (text : Text) :
    (analyze_asm asm text).symbols = asm.machines.flatMap (machineAllSymbols text) := by
  have key : ∀ (ms : List (Path × Machine)) (idx : SemanticIndex),
      ms.foldl processMachine (idx, PositionTracker.new text) =
        (addSymbols idx (ms.flatMap (machineAllSymbols text)), PositionTracker.new text) := by
    intro ms
    induction ms with
    | nil => intro idx; simp [addSymbols]
    | cons pm rest ih =>
      intro idx
      simp only [List.foldl_cons, processMachine_eq, ih, List.flatMap_cons, addSymbols_append]
  unfold analyze_asm
  rw [key]
  simp [SemanticIndex.new, addSymbols_symbols]

/-- All symbols `analyze_pil` adds, in insertion order. -/
def pilAllSymbols (text : Text) (pil : Analyzed) : List Symbol :=
  pil.definitions.flatMap (fun n => (locateFromStart text n).map
    (fun sp => ⟨.Definition, sp, n, .Definition⟩)) ++
  pil.public_declarations.flatMap (fun n => (locateFromStart text n).map
    (fun sp => ⟨.Public, sp, n, .Public⟩)) ++
  pil.intermediate_columns.flatMap (fun n => (locateFromStart text n).map
    (fun sp => ⟨.Intermediate, sp, n, .Intermediate⟩)) ++
  pil.trait_impls.flatMap (fun n => (locateFromStart text n).map
    (fun sp => ⟨.TraitImpl, sp, n, .TraitImpl⟩))

theorem pilPass_fold_eq (kind : SymbolKind) (details : SymbolDetails) (text : Text)
    (names : List Text) (idx : SemanticIndex) :
    names.foldl (pilPass kind details) (idx, PositionTracker.new text) =
      (addSymbols idx (names.flatMap (fun n => (locateFromStart text n).map
        (fun sp => ⟨kind, sp, n, details⟩))), PositionTracker.new text) := by
  induction names generalizing idx with
  | nil => simp [addSymbols]
  | cons n rest ih =>
    simp only [List.foldl_cons, List.flatMap_cons]
    show rest.foldl (pilPass kind details)
        ((locateFromStart text n).foldl
          (fun idx sp => idx.add_symbol ⟨kind, sp, n, details⟩) idx,
          PositionTracker.new text) = _
    rw [foldl_add_symbol_map, ih, addSymbols_append]

/-- The contents of the index built by `analyze_pil`. -/
theorem analyze_pil_symbols (pil : Analyzed) (text : Text) :
    (analyze_pil pil text).symbols = pilAllSymbols text pil := by
  unfold analyze_pil
  simp only [pilPass_fold_eq]
  simp [SemanticIndex.new, addSymbols_symbols, addSymbols_append, pilAllSymbols,
    List.append_assoc]

theorem locateFromStart_sound {text pat : Text} {sp : Span}
    (h : sp ∈ locateFromStart text pat) :
    sp.stop = sp.start + pat.length ∧
    extractSpan text sp.start sp.stop = pat ∧
    (sp.start = 0 ∨ is_identifier_char (charAt text (sp.start - 1)) = false) ∧
    (text.length ≤ sp.stop ∨ is_identifier_char (charAt text sp.stop) = false) ∧
    isInCommentAt text sp.start = false := by
  obtain ⟨h1, h2, _, h4, h5, h6⟩ := collectSpans_sound h
  exact ⟨h1, h2, h4, h5, h6⟩

/-! ## Concrete instances shared by several theorems -/

/-- A machine with no callables, no registers and no declared degree. -/
def mainMachine : Machine := ⟨⟨none, none⟩, [], []⟩

/-- A one-machine tree whose machine is the top-level `Main`. -/
def asmMainOnly : AnalysisASMFile := ⟨[(["Main".data], mainMachine)]⟩

/-- A one-machine tree whose machine lives in module `m` (absolute path
`::m::Main`, short name `Main`). -/
def asmModMain : AnalysisASMFile := ⟨[(["m".data, "Main".data], mainMachine)]⟩

/-! ## Claim C2 -/

/-- Claim C2 as stated: for every document and every Symbol stored in its
Semantic Index at build time, the substring of the document's text delimited
by the symbol's span equals the symbol's name. -/
def ClaimC2 : Prop :=
  ∀ (doc : AnalyzedDoc) (text : Text) (sym : Symbol),
    sym ∈ (build_semantic_index doc text).symbols →
    extractSpan text sym.span.start sym.span.stop = sym.name

/-- C2 fails on the code: for a machine at path `::m::Main` in text
`m::Main`, the extractor stores a short-name Machine symbol named `Main`
whose span covers the fully-qualified occurrence `m::Main`. -/
theorem C2_counterexample : ¬ ClaimC2 := by
  intro h
  have hx := h (.ASM asmModMain) "m::Main".data
    ⟨.Machine, ⟨0, 7⟩, "Main".data, .Machine (some ⟨some 8, some 10⟩)⟩ (by decide)
  exact absurd hx (by decide)

/-- C2 amended: `text[S.span] = S.name` holds for every non-Machine symbol;
for a Machine symbol the span covers the machine's fully-qualified
(relative-to-root) name string, while the stored name is the machine's
absolute display form or its short name, which may differ from the covered
text. -/
theorem C2_amended :
    ∀ (doc : AnalyzedDoc) (text : Text) (sym : Symbol),
      sym ∈ (build_semantic_index doc text).symbols →
      (sym.kind ≠ .Machine →
        extractSpan text sym.span.start sym.span.stop = sym.name) ∧
      (sym.kind = .Machine → ∃ asm, doc = .ASM asm ∧ ∃ pm ∈ asm.machines,
        extractSpan text sym.span.start sym.span.stop = relPathString pm.1 ∧
        (sym.name = absPathString pm.1 ∨ sym.name = shortName pm.1)) := by
  intro doc text sym hmem
  cases doc with
  | ASM asm =>
    rw [show build_semantic_index (.ASM asm) text = analyze_asm asm text from rfl,
      analyze_asm_symbols] at hmem
    obtain ⟨pm, hpm, hin⟩ := List.mem_flatMap.mp hmem
    unfold machineAllSymbols at hin
    rcases List.mem_append.mp hin with hin' | hreg
    · rcases List.mem_append.mp hin' with hmach | hcall
      · obtain ⟨sp, hsp, hs⟩ := List.mem_flatMap.mp hmach
        have hex := (locateFromStart_sound hsp).2.1
        simp only [machineSpanSymbols, List.mem_cons, List.not_mem_nil, or_false] at hs
        rcases hs with rfl | rfl
        · exact ⟨fun hk => absurd rfl hk,
            fun _ => ⟨asm, rfl, pm, hpm, hex, Or.inl rfl⟩⟩
        · exact ⟨fun hk => absurd rfl hk,
            fun _ => ⟨asm, rfl, pm, hpm, hex, Or.inr rfl⟩⟩
      · obtain ⟨c, _, hin2⟩ := List.mem_flatMap.mp hcall
        obtain ⟨sp, hsp, rfl⟩ := List.mem_map.mp hin2
        exact ⟨fun _ => (locateFromStart_sound hsp).2.1, fun hk => nomatch hk⟩
    · obtain ⟨r, _, hin2⟩ := List.mem_flatMap.mp hreg
      obtain ⟨sp, hsp, rfl⟩ := List.mem_map.mp hin2
      exact ⟨fun _ => (locateFromStart_sound hsp).2.1, fun hk => nomatch hk⟩
  | PIL pil =>
    rw [show build_semantic_index (.PIL pil) text = analyze_pil pil text from rfl,
      analyze_pil_symbols] at hmem
    unfold pilAllSymbols at hmem
    rcases List.mem_append.mp hmem with h3 | h4
    · rcases List.mem_append.mp h3 with h2 | h3'
      · rcases List.mem_append.mp h2 with h1 | h2'
        · obtain ⟨n, _, hin2⟩ := List.mem_flatMap.mp h1
          obtain ⟨sp, hsp, rfl⟩ := List.mem_map.mp hin2
          exact ⟨fun _ => (locateFromStart_sound hsp).2.1, fun hk => nomatch hk⟩
        · obtain ⟨n, _, hin2⟩ := List.mem_flatMap.mp h2'
          obtain ⟨sp, hsp, rfl⟩ := List.mem_map.mp hin2
          exact ⟨fun _ => (locateFromStart_sound hsp).2.1, fun hk => nomatch hk⟩
      · obtain ⟨n, _, hin2⟩ := List.mem_flatMap.mp h3'
        obtain ⟨sp, hsp, rfl⟩ := List.mem_map.mp hin2
        exact ⟨fun _ => (locateFromStart_sound hsp).2.1, fun hk => nomatch hk⟩
    · obtain ⟨n, _, hin2⟩ := List.mem_flatMap.mp h4
      obtain ⟨sp, hsp, rfl⟩ := List.mem_map.mp hin2
      exact ⟨fun _ => (locateFromStart_sound hsp).2.1, fun hk => nomatch hk⟩

/-- Witness for C2's amended theorem at a concrete PIL document. -/
theorem C2_amended_witness :
    extractSpan "x".data 0 1 = "x".data :=
  (C2_amended (.PIL ⟨["x".data], [], [], []⟩) "x".data
    ⟨.Definition, ⟨0, 1⟩, "x".data, .Definition⟩ (by decide)).1 (by decide)

/-! ## Claim C3 -/

/-- Claim C3 as stated: for every machine of an ASM analysis result, the
extractor locates spans for both the fully-qualified name and the short name,
and emits a Machine symbol at each valid span of each of the two forms. -/
def ClaimC3 : Prop :=
  ∀ (asm : AnalysisASMFile) (text : Text) (pm : Path × Machine),
    pm ∈ asm.machines →
    (∀ sp ∈ locateFromStart text (relPathString pm.1),
      ∃ sym ∈ (analyze_asm asm text).symbols,
        sym.kind = .Machine ∧ sym.span = sp) ∧
    (∀ sp ∈ locateFromStart text (shortName pm.1),
      ∃ sym ∈ (analyze_asm asm text).symbols,
        sym.kind = .Machine ∧ sym.span = sp)

/-- C3 fails on the code: in text `m::Main uses Main` with machine
`::m::Main`, the short name `Main` has a valid occurrence at span [13, 17),
but the extractor only scans for the fully-qualified form and emits no symbol
at that span. -/
theorem C3_counterexample : ¬ ClaimC3 := by
  intro h
  have hx := (h asmModMain "m::Main uses Main".data
    (["m".data, "Main".data], mainMachine) (by decide)).2 ⟨13, 17⟩ (by decide)
  exact absurd hx (by decide)

/-- C3 amended: the extractor locates spans only for the machine's
fully-qualified (relative-to-root) name; at each such span it emits two
Machine symbols, one named with the absolute display form and one with the
short name, both covering that same span. -/
theorem C3_amended :
    ∀ (asm : AnalysisASMFile) (text : Text) (pm : Path × Machine),
      pm ∈ asm.machines →
      ∀ sp ∈ locateFromStart text (relPathString pm.1),
        (⟨.Machine, sp, absPathString pm.1,
          .Machine (some (degreeInfoFromMachineDegree pm.2.degree))⟩ : Symbol) ∈
            (analyze_asm asm text).symbols ∧
        (⟨.Machine, sp, shortName pm.1,
          .Machine (some (degreeInfoFromMachineDegree pm.2.degree))⟩ : Symbol) ∈
            (analyze_asm asm text).symbols := by
  intro asm text pm hpm sp hsp
  rw [analyze_asm_symbols]
  have hfull : (⟨.Machine, sp, absPathString pm.1,
      .Machine (some (degreeInfoFromMachineDegree pm.2.degree))⟩ : Symbol) ∈
      machineAllSymbols text pm := by
    unfold machineAllSymbols
    exact List.mem_append_left _ (List.mem_append_left _
      (List.mem_flatMap.mpr ⟨sp, hsp, by simp [machineSpanSymbols]⟩))
  have hshort : (⟨.Machine, sp, shortName pm.1,
      .Machine (some (degreeInfoFromMachineDegree pm.2.degree))⟩ : Symbol) ∈
      machineAllSymbols text pm := by
    unfold machineAllSymbols
    exact List.mem_append_left _ (List.mem_append_left _
      (List.mem_flatMap.mpr ⟨sp, hsp, by simp [machineSpanSymbols]⟩))
  exact ⟨List.mem_flatMap.mpr ⟨pm, hpm, hfull⟩, List.mem_flatMap.mpr ⟨pm, hpm, hshort⟩⟩

/-- Witness for C3's amended theorem at the concrete `machine Main` text. -/
theorem C3_amended_witness :
    (⟨.Machine, ⟨8, 12⟩, absPathString ["Main".data],
      .Machine (some (degreeInfoFromMachineDegree mainMachine.degree))⟩ : Symbol) ∈
        (analyze_asm asmMainOnly "machine Main".data).symbols ∧
    (⟨.Machine, ⟨8, 12⟩, shortName ["Main".data],
      .Machine (some (degreeInfoFromMachineDegree mainMachine.degree))⟩ : Symbol) ∈
        (analyze_asm asmMainOnly "machine Main".data).symbols :=
  C3_amended asmMainOnly "machine Main".data (["Main".data], mainMachine)
    (by decide) ⟨8, 12⟩ (by decide)

/-! ## Claim C5 -/

/-- Claim C5 as stated, operational content: across calls on one text
instance the locator's cursor advances monotonically past consumed matches,
so that a later lookup does not re-scan the prefix consumed by the returned
matches: after a call, every returned span lies before the updated cursor. -/
def ClaimC5 : Prop :=
  ∀ (t : PositionTracker) (symbol : Text) (sp : Span),
    sp ∈ (find_symbol_positions t symbol).1 →
    sp.stop ≤ (find_symbol_positions t symbol).2.current_pos

/-- C5 fails on the code: `find_symbol_positions` advances only its local
`search_pos` and never writes `self.current_pos`, so after finding `Main` at
span [8, 12) the cursor is still 0. -/
theorem C5_counterexample : ¬ ClaimC5 := by
  intro h
  have hx := h (PositionTracker.new "machine Main".data) "Main".data ⟨8, 12⟩ (by decide)
  exact absurd hx (by decide)

/-- C5 amended: the cursor is never modified — each call scans from the same
shared baseline (`current_pos`, 0 for a whole document pass) to the end of
text, re-scanning already-searched prefixes; every returned span is a genuine
occurrence at or after that baseline, so no name's scan skips occurrences
because of another name's matches. -/
theorem C5_amended :
    ∀ (t : PositionTracker) (symbol : Text),
      (find_symbol_positions t symbol).2 = t ∧
      ∀ sp ∈ (find_symbol_positions t symbol).1,
        t.current_pos ≤ sp.start ∧
        extractSpan t.text sp.start sp.stop = symbol := by
  intro t symbol
  refine ⟨rfl, fun sp hsp => ?_⟩
  obtain ⟨_, h2, h3, _, _, _⟩ := collectSpans_sound hsp
  exact ⟨h3, h2⟩

/-- Witness for C5's amended theorem at the concrete `machine Main` text. -/
theorem C5_amended_witness :
    (find_symbol_positions (PositionTracker.new "machine Main".data) "Main".data).2 =
      PositionTracker.new "machine Main".data ∧
    ((PositionTracker.new "machine Main".data).current_pos ≤ 8 ∧
      extractSpan "machine Main".data 8 12 = "Main".data) :=
  ⟨(C5_amended (PositionTracker.new "machine Main".data) "Main".data).1,
   (C5_amended (PositionTracker.new "machine Main".data) "Main".data).2
     ⟨8, 12⟩ (by decide)⟩

/-! ## Claim C6 -/

/-- Claim C6 concerns `From<MachineDegree> for DegreeInfo`: the conversion
ignores the declared degree entirely and always produces the placeholder
`min = Some(8), max = Some(10)` (the `//TODO evaluate expr` in
src/symbol.rs), so even a machine with no declared degree carries a
fabricated 8..10 size-range detail, contradicting the claim that the detail
reflects the declared range's shape. -/
theorem C6_code_bug_eval :
    (∀ d : MachineDegree, degreeInfoFromMachineDegree d = ⟨some 8, some 10⟩) ∧
    (analyze_asm asmMainOnly "machine Main".data).symbols.map Symbol.details =
      [.Machine (some ⟨some 8, some 10⟩), .Machine (some ⟨some 8, some 10⟩)] :=
  ⟨fun _ => rfl, by decide⟩

/-! ## Claim C7 -/

/-- Claim C7: a locator match is valid only when the bytes adjacent to it
(where they exist) are not identifier characters; in particular searching
`foo` for `fo` yields no matches. -/
theorem C7_identifier_boundary :
    (∀ (t : PositionTracker) (symbol : Text) (sp : Span),
      sp ∈ (find_symbol_positions t symbol).1 →
      (sp.start = 0 ∨ is_identifier_char (charAt t.text (sp.start - 1)) = false) ∧
      (t.text.length ≤ sp.stop ∨ is_identifier_char (charAt t.text sp.stop) = false)) ∧
    (find_symbol_positions (PositionTracker.new "foo".data) "fo".data).1 = [] := by
  refine ⟨fun t symbol sp hsp => ?_, by decide⟩
  obtain ⟨_, _, _, h4, h5, _⟩ := collectSpans_sound hsp
  exact ⟨h4, h5⟩

/-- Witness for C7 at the concrete text `a b` searched for `b`. -/
theorem C7_witness :
    ((2 : Nat) = 0 ∨ is_identifier_char (charAt "a b".data 1) = false) ∧
    ("a b".data.length ≤ 3 ∨ is_identifier_char (charAt "a b".data 3) = false) :=
  C7_identifier_boundary.1 (PositionTracker.new "a b".data) "b".data ⟨2, 3⟩ (by decide)

/-! ## Claim C8 -/

/-- Claim C8: a locator match is invalid when its line, up to the match start
and after trimming leading whitespace, begins with `//`; in the comment
scenario only the real declaration's occurrence of `Main` is located and
indexed. -/
theorem C8_comment_exclusion :
    (∀ (t : PositionTracker) (symbol : Text) (sp : Span),
      sp ∈ (find_symbol_positions t symbol).1 →
      isInCommentAt t.text sp.start = false) ∧
    (find_symbol_positions (PositionTracker.new "// Main is unused\nmachine Main".data)
      "Main".data).1 = [⟨26, 30⟩] ∧
    ∀ sym ∈ (analyze_asm asmMainOnly "// Main is unused\nmachine Main".data).symbols,
      sym.span = ⟨26, 30⟩ := by
  refine ⟨fun t symbol sp hsp => (collectSpans_sound hsp).2.2.2.2.2, by decide, by decide⟩

/-- Witness for C8 at the declaration occurrence of the comment scenario. -/
theorem C8_witness :
    isInCommentAt "// Main is unused\nmachine Main".data 26 = false :=
  C8_comment_exclusion.1
    (PositionTracker.new "// Main is unused\nmachine Main".data)
    "Main".data ⟨26, 30⟩ (by decide)

/-! ## Claims C1 and C9 (hover) -/

/-- Modelled from the spec (§4.6), for stating claim C1 only: the
position-to-offset conversion the spec ascribes to the hover resolver — the
sum of the lengths (plus one separator byte) of all lines strictly before
`line`, plus `character`.  The source contains no such conversion. -/
def spec_position_to_offset (text : Text) (line character : Nat) : Nat :=
  ((rustLines text).take line).foldl (fun acc l => acc + l.length + 1) 0 + character

/-- There is an entity with the given name-word in the ASM tree: a machine at
absolute path `::word`, a callable named `word`, or a register named
`word`. -/
def asmHasWord (asm : AnalysisASMFile) (w : Text) : Prop :=
  (∃ pm ∈ asm.machines, pm.1 = splitPath w) ∨
  (∃ pm ∈ asm.machines, ∃ c ∈ pm.2.callable, c.name = w) ∨
  (∃ pm ∈ asm.machines, ∃ r ∈ pm.2.registers, r.name = w)

/-- There is an entity with the given name-word in the PIL tree. -/
def pilHasWord (pil : Analyzed) (w : Text) : Prop :=
  w ∈ pil.definitions ∨ w ∈ pil.public_declarations ∨
  w ∈ pil.intermediate_columns ∨ w ∈ pil.trait_impls

/-- There is an entity with the given name-word in the analyzed tree. -/
def docHasWord : AnalyzedDoc → Text → Prop
  | .ASM asm, w => asmHasWord asm w
  | .PIL pil, w => pilHasWord pil w

theorem isSome_option_or {α : Type} (a b : Option α) :
    (a.or b).isSome = (a.isSome || b.isSome) := by
  cases a <;> cases b <;> rfl

theorem isSome_option_map {α β : Type} (f : α → β) (o : Option α) :
    (Option.map f o).isSome = o.isSome := by
  cases o <;> rfl

theorem get_token_from_asm_isSome (asm : AnalysisASMFile) (w : Text) :
    (get_token_from_asm asm w).isSome = true ↔ asmHasWord asm w := by
  unfold get_token_from_asm
  rw [isSome_option_or, isSome_option_or, Bool.or_eq_true, Bool.or_eq_true,
    isSome_option_map, List.find?_isSome]
  unfold asmHasWord
  constructor
  · rintro ((⟨pm, hpm, hp⟩ | hi) | hr)
    · exact Or.inl ⟨pm, hpm, by simpa using hp⟩
    · refine Or.inr (Or.inl ?_)
      rw [List.findSome?_isSome_iff] at hi
      obtain ⟨pm, hpm, hc⟩ := hi
      rw [isSome_option_map, List.find?_isSome] at hc
      obtain ⟨c, hcm, hcw⟩ := hc
      exact ⟨pm, hpm, c, hcm, by simpa using hcw⟩
    · refine Or.inr (Or.inr ?_)
      rw [List.findSome?_isSome_iff] at hr
      obtain ⟨pm, hpm, hc⟩ := hr
      rw [isSome_option_map, List.find?_isSome] at hc
      obtain ⟨r, hrm, hrw⟩ := hc
      exact ⟨pm, hpm, r, hrm, by simpa using hrw⟩
  · rintro (⟨pm, hpm, hp⟩ | ⟨pm, hpm, c, hcm, hcw⟩ | ⟨pm, hpm, r, hrm, hrw⟩)
    · exact Or.inl (Or.inl ⟨pm, hpm, by simpa using hp⟩)
    · refine Or.inl (Or.inr ?_)
      rw [List.findSome?_isSome_iff]
      refine ⟨pm, hpm, ?_⟩
      rw [isSome_option_map, List.find?_isSome]
      exact ⟨c, hcm, by simpa using hcw⟩
    · refine Or.inr ?_
      rw [List.findSome?_isSome_iff]
      refine ⟨pm, hpm, ?_⟩
      rw [isSome_option_map, List.find?_isSome]
      exact ⟨r, hrm, by simpa using hrw⟩

theorem get_token_from_pil_isSome (pil : Analyzed) (w : Text) :
    (get_token_from_pil pil w).isSome = true ↔ pilHasWord pil w := by
  unfold get_token_from_pil
  rw [isSome_option_or, isSome_option_or, isSome_option_or]
  unfold pilHasWord
  split_ifs <;> simp_all

/-- Claim C1 as stated: for a document record and an in-bounds position,
hover produces rendered text exactly when some indexed symbol's span contains
the position's byte offset. -/
def ClaimC1 : Prop :=
  ∀ (doc : ParsedDocument) (line character : Nat) (lineT : Text),
    (rustLines doc.text).get? line = some lineT →
    character < lineT.length →
    ((get_hover doc.text doc.analyzed line character).isSome = true ↔
      ∃ sym ∈ doc.semantic_index.symbols,
        sym.span.start ≤ spec_position_to_offset doc.text line character ∧
        spec_position_to_offset doc.text line character < sym.span.stop)

/-- The pipeline's document record for text `// Main` + newline +
`machine Main` analyzed as the single machine `::Main`. -/
def hoverDocMain : ParsedDocument :=
  ⟨.ASM asmMainOnly, "// Main\nmachine Main".data, 0,
   build_semantic_index (.ASM asmMainOnly) "// Main\nmachine Main".data⟩

/-- C1 fails on the code: hover never consults the semantic index — it
resolves the identifier word under the cursor against the analyzed tree.  At
the in-bounds position (0,3), on `Main` inside the line comment, hover
returns rendered machine text although the byte offset 3 lies in no indexed
symbol's span (the only indexed spans cover the real declaration at
[16, 20)). -/
theorem C1_counterexample : ¬ ClaimC1 := by
  intro h
  have hx := (h hoverDocMain 0 3 "// Main".data (by decide) (by decide)).mp (by decide)
  exact absurd hx (by decide)

/-- C1 amended: hover produces rendered text exactly when the position lies
on an identifier word (per `get_word_at_position`) that names an entity of
the document's analyzed tree; the semantic index and the byte offset play no
role in the hover path. -/
theorem C1_amended :
    ∀ (text : Text) (analyzed : AnalyzedDoc) (line character : Nat),
      (get_hover text analyzed line character).isSome = true ↔
      ∃ w s e, get_word_at_position text line character = some (w, s, e) ∧
        docHasWord analyzed w := by
  intro text analyzed line character
  unfold get_hover get_token_at_position
  rw [isSome_option_map]
  cases hw : get_word_at_position text line character with
  | none => simp
  | some wse =>
    obtain ⟨w, s, e⟩ := wse
    cases analyzed with
    | ASM asm =>
      simp only [Option.some_bind]
      rw [get_token_from_asm_isSome]
      simp [docHasWord]
    | PIL pil =>
      simp only [Option.some_bind]
      rw [get_token_from_pil_isSome]
      simp [docHasWord]

/-- Witness for the amended C1 at the concrete declaration position (0, 8)
of `machine Main`. -/
theorem C1_amended_witness :
    (get_hover "machine Main".data (.ASM asmMainOnly) 0 8).isSome = true ↔
    ∃ w s e, get_word_at_position "machine Main".data 0 8 = some (w, s, e) ∧
      docHasWord (.ASM asmMainOnly) w :=
  C1_amended "machine Main".data (.ASM asmMainOnly) 0 8

/-- Claim C9: a hover position outside the document's bounds — line beyond
the line count, or column at or past the end of its line — yields no result
(and no failure: the functions are total). -/
theorem C9_out_of_bounds :
    ∀ (text : Text) (analyzed : AnalyzedDoc) (line character : Nat),
      ((rustLines text).length ≤ line →
        get_hover text analyzed line character = none) ∧
      (∀ lineT, (rustLines text).get? line = some lineT →
        lineT.length ≤ character →
        get_hover text analyzed line character = none) := by
  intro text analyzed line character
  constructor
  · intro hlen
    have hw : get_word_at_position text line character = none := by
      unfold get_word_at_position
      rw [List.get?_eq_none.mpr hlen]
    unfold get_hover get_token_at_position
    rw [hw]
    rfl
  · intro lineT hline hcol
    have hw : get_word_at_position text line character = none := by
      unfold get_word_at_position
      simp only [hline]
      rw [if_pos (show character ≥ lineT.length from hcol)]
    unfold get_hover get_token_at_position
    rw [hw]
    rfl

/-- Witness for C9 at concrete out-of-bounds positions. -/
theorem C9_witness :
    get_hover "machine Main".data (.ASM asmMainOnly) 5 0 = none ∧
    get_hover "machine Main".data (.ASM asmMainOnly) 0 50 = none :=
  ⟨(C9_out_of_bounds "machine Main".data (.ASM asmMainOnly) 5 0).1 (by decide),
   (C9_out_of_bounds "machine Main".data (.ASM asmMainOnly) 0 50).2
     "machine Main".data (by decide) (by decide)⟩

/-! ## Workspace symbol table lemmas (src/main.rs) -/

instance : Inhabited SymbolKind := ⟨.Machine⟩

instance : Nonempty (Url × SymbolKind) := ⟨([], .Machine)⟩

instance : Nonempty (List (Url × SymbolKind)) := ⟨[]⟩

/-- The locations map has pairwise distinct keys, as a `HashMap` does. -/
def KeysNodup (m : List (Text × List (Url × SymbolKind))) : Prop :=
  (m.map Prod.fst).Nodup

theorem slGet_eq_nil_of_no_key {m : List (Text × List (Url × SymbolKind))}
    {name : Text} (h : ∀ e ∈ m, e.1 ≠ name) : slGet m name = [] := by
  induction m with
  | nil => rfl
  | cons e rest ih =>
    obtain ⟨k, locs⟩ := e
    have hk : k ≠ name := h (k, locs) (List.mem_cons_self ..)
    simp only [slGet, if_neg hk]
    exact ih (fun e he => h e (List.mem_cons_of_mem _ he))

theorem slGet_slPush_self (m : List (Text × List (Url × SymbolKind)))
    (n : Text) (x : Url × SymbolKind) :
    slGet (slPush m n x) n = slGet m n ++ [x] := by
  induction m with
  | nil => simp [slPush, slGet]
  | cons e rest ih =>
    obtain ⟨k, locs⟩ := e
    by_cases hk : k = n
    · subst hk; simp [slPush, slGet]
    · simp [slPush, slGet, hk, ih]

theorem slGet_slPush_ne (m : List (Text × List (Url × SymbolKind)))
    {n name : Text} (h : n ≠ name) (x : Url × SymbolKind) :
    slGet (slPush m n x) name = slGet m name := by
  induction m with
  | nil => simp [slPush, slGet, h]
  | cons e rest ih =>
    obtain ⟨k, locs⟩ := e
    by_cases hk : k = n
    · subst hk; simp [slPush, slGet, h]
    · simp [slPush, slGet, hk, ih]

theorem slGet_foldl_slPush (syms : List Symbol) (uri : Url) (name : Text) :
    ∀ m0, slGet (syms.foldl (fun m sym => slPush m sym.name (uri, sym.kind)) m0) name =
      slGet m0 name ++
        (syms.filter (fun s => decide (s.name = name))).map (fun s => (uri, s.kind)) := by
  induction syms with
  | nil => intro m0; simp
  | cons s rest ih =>
    intro m0
    simp only [List.foldl_cons, ih]
    by_cases h : s.name = name
    · subst h
      rw [slGet_slPush_self]
      simp [List.filter_cons, List.append_assoc]
    · rw [slGet_slPush_ne m0 h (uri, s.kind)]
      simp [List.filter_cons, h]

theorem slPush_cons_self (k : Text) (locs : List (Url × SymbolKind))
    (rest : List (Text × List (Url × SymbolKind))) (x : Url × SymbolKind) :
    slPush ((k, locs) :: rest) k x = (k, locs ++ [x]) :: rest := by
  simp [slPush]

theorem slPush_cons_ne {k n : Text} (hk : k ≠ n) (locs : List (Url × SymbolKind))
    (rest : List (Text × List (Url × SymbolKind))) (x : Url × SymbolKind) :
    slPush ((k, locs) :: rest) n x = (k, locs) :: slPush rest n x := by
  simp [slPush, hk]

theorem mem_keys_slPush {m : List (Text × List (Url × SymbolKind))}
    {n a : Text} (x : Url × SymbolKind) :
    a ∈ (slPush m n x).map Prod.fst ↔ a ∈ m.map Prod.fst ∨ a = n := by
  induction m with
  | nil => simp [slPush]
  | cons e rest ih =>
    obtain ⟨k, locs⟩ := e
    by_cases hk : k = n
    · subst hk
      rw [slPush_cons_self]
      simp only [List.map_cons, List.mem_cons]
      tauto
    · rw [slPush_cons_ne hk]
      simp only [List.map_cons, List.mem_cons, ih]
      tauto

theorem KeysNodup_slPush {m : List (Text × List (Url × SymbolKind))}
    (h : KeysNodup m) (n : Text) (x : Url × SymbolKind) :
    KeysNodup (slPush m n x) := by
  induction m with
  | nil =>
    show ([(n, [x])].map Prod.fst).Nodup
    simp
  | cons e rest ih =>
    obtain ⟨k, locs⟩ := e
    obtain ⟨hk, hrest⟩ := List.nodup_cons.mp h
    by_cases hkn : k = n
    · subst hkn
      rw [show KeysNodup (slPush ((k, locs) :: rest) k x) =
          KeysNodup ((k, locs ++ [x]) :: rest) from by rw [slPush_cons_self]]
      exact List.nodup_cons.mpr ⟨by simpa using hk, hrest⟩
    · rw [show KeysNodup (slPush ((k, locs) :: rest) n x) =
          KeysNodup ((k, locs) :: slPush rest n x) from by rw [slPush_cons_ne hkn]]
      refine List.nodup_cons.mpr ⟨?_, ih hrest⟩
      intro hmem
      rcases (mem_keys_slPush x).mp hmem with hmem | rfl
      · exact hk (by simpa using hmem)
      · exact hkn rfl

theorem KeysNodup_foldl_slPush (syms : List Symbol) (uri : Url) :
    ∀ {m0}, KeysNodup m0 →
      KeysNodup (syms.foldl (fun m sym => slPush m sym.name (uri, sym.kind)) m0) := by
  induction syms with
  | nil => intro m0 h; exact h
  | cons s rest ih =>
    intro m0 h
    exact ih (KeysNodup_slPush h s.name (uri, s.kind))

theorem keys_removeUri_subset {m : List (Text × List (Url × SymbolKind))}
    (uri : Url) {a : Text} (h : a ∈ (removeUriLocations m uri).map Prod.fst) :
    a ∈ m.map Prod.fst := by
  unfold removeUriLocations at h
  obtain ⟨e, he, rfl⟩ := List.mem_map.mp h
  have he2 := (List.mem_filter.mp he).1
  obtain ⟨e', he', rfl⟩ := List.mem_map.mp he2
  exact List.mem_map.mpr ⟨e', he', rfl⟩

theorem KeysNodup_removeUri {m : List (Text × List (Url × SymbolKind))}
    (h : KeysNodup m) (uri : Url) : KeysNodup (removeUriLocations m uri) := by
  unfold KeysNodup removeUriLocations
  have hsub : ((m.map (fun e => (e.1, e.2.filter (fun loc => decide (loc.1 ≠ uri))))).filter
      (fun e => decide (e.2 ≠ []))).map Prod.fst |>.Sublist
      ((m.map (fun e => (e.1, e.2.filter (fun loc => decide (loc.1 ≠ uri))))).map Prod.fst) :=
    (List.filter_sublist _).map Prod.fst
  refine List.Nodup.sublist hsub ?_
  rw [List.map_map]
  exact h

theorem removeUri_cons_kept {locs : List (Url × SymbolKind)} {uri : Url}
    (h : locs.filter (fun loc => decide (loc.1 ≠ uri)) ≠ []) (k : Text)
    (rest : List (Text × List (Url × SymbolKind))) :
    removeUriLocations ((k, locs) :: rest) uri =
      (k, locs.filter (fun loc => decide (loc.1 ≠ uri))) :: removeUriLocations rest uri := by
  unfold removeUriLocations
  simp only [List.map_cons, List.filter_cons]
  rw [if_pos (decide_eq_true h)]

theorem removeUri_cons_dropped {locs : List (Url × SymbolKind)} {uri : Url}
    (h : locs.filter (fun loc => decide (loc.1 ≠ uri)) = []) (k : Text)
    (rest : List (Text × List (Url × SymbolKind))) :
    removeUriLocations ((k, locs) :: rest) uri = removeUriLocations rest uri := by
  unfold removeUriLocations
  simp only [List.map_cons, List.filter_cons]
  rw [if_neg]
  intro hc
  exact (of_decide_eq_true hc) h

theorem mem_slGet_removeUri {m : List (Text × List (Url × SymbolKind))}
    (hnd : KeysNodup m) (uri : Url) (name : Text) (x : Url × SymbolKind) :
    x ∈ slGet (removeUriLocations m uri) name ↔ x ∈ slGet m name ∧ x.1 ≠ uri := by
  induction m with
  | nil => simp [removeUriLocations, slGet]
  | cons e rest ih =>
    obtain ⟨k, locs⟩ := e
    obtain ⟨hknotin, hndrest⟩ := List.nodup_cons.mp hnd
    by_cases hk : k = name
    · subst hk
      by_cases hne : locs.filter (fun loc => decide (loc.1 ≠ uri)) = []
      · rw [removeUri_cons_dropped hne]
        have hnokey : slGet (removeUriLocations rest uri) k = [] := by
          apply slGet_eq_nil_of_no_key
          intro e he hek
          exact hknotin (keys_removeUri_subset uri (List.mem_map.mpr ⟨e, he, hek⟩))
        rw [hnokey]
        rw [show slGet ((k, locs) :: rest) k = locs from by simp [slGet]]
        simp only [List.not_mem_nil, false_iff]
        rintro ⟨hin, hne2⟩
        have hmem2 : x ∈ locs.filter (fun loc => decide (loc.1 ≠ uri)) :=
          List.mem_filter.mpr ⟨hin, decide_eq_true hne2⟩
        rw [hne] at hmem2
        exact List.not_mem_nil x hmem2
      · rw [removeUri_cons_kept hne]
        rw [show slGet ((k, locs.filter (fun loc => decide (loc.1 ≠ uri))) ::
            removeUriLocations rest uri) k =
            locs.filter (fun loc => decide (loc.1 ≠ uri)) from by simp [slGet]]
        rw [show slGet ((k, locs) :: rest) k = locs from by simp [slGet]]
        rw [List.mem_filter]
        constructor
        · rintro ⟨h1, h2⟩
          exact ⟨h1, of_decide_eq_true h2⟩
        · rintro ⟨h1, h2⟩
          exact ⟨h1, decide_eq_true h2⟩
    · rw [show slGet ((k, locs) :: rest) name = slGet rest name from by simp [slGet, hk]]
      by_cases hne : locs.filter (fun loc => decide (loc.1 ≠ uri)) = []
      · rw [removeUri_cons_dropped hne]
        exact ih hndrest
      · rw [removeUri_cons_kept hne]
        rw [show slGet ((k, locs.filter (fun loc => decide (loc.1 ≠ uri))) ::
            removeUriLocations rest uri) name =
            slGet (removeUriLocations rest uri) name from by simp [slGet, hk]]
        exact ih hndrest

theorem aGet_aInsert {β : Type} (live : List (Url × β)) (u u' : Url) (d : β) :
    aGet (aInsert live u d) u' = if u' = u then some d else aGet live u' := by
  induction live with
  | nil =>
    by_cases h : u' = u
    · subst h; simp [aInsert, aGet]
    · have h' : ¬u = u' := fun hh => h hh.symm
      simp [aInsert, aGet, h, h']
  | cons e rest ih =>
    obtain ⟨k, v⟩ := e
    by_cases hk : k = u
    · subst hk
      by_cases h : u' = k
      · subst h; simp [aInsert, aGet]
      · have h' : ¬k = u' := fun hh => h hh.symm
        simp [aInsert, aGet, h, h']
    · by_cases h : k = u'
      · subst h
        have h' : ¬k = u := hk
        simp [aInsert, aGet, hk, h']
      · simp [aInsert, aGet, hk, h, ih]

theorem aGet_aRemove {β : Type} (live : List (Url × β)) (uri u' : Url) :
    aGet (aRemove live uri) u' = if u' = uri then none else aGet live u' := by
  induction live with
  | nil => simp [aRemove, aGet]
  | cons e rest ih =>
    obtain ⟨k, v⟩ := e
    by_cases hk : k = uri
    · subst hk
      have hdrop : aRemove ((k, v) :: rest) k = aRemove rest k := by
        simp [aRemove, List.filter_cons]
      rw [hdrop, ih]
      by_cases h : u' = k
      · simp [h]
      · have h' : ¬k = u' := fun hh => h hh.symm
        simp [aGet, h, h']
    · have hkeep : aRemove ((k, v) :: rest) uri = (k, v) :: aRemove rest uri := by
        simp [aRemove, List.filter_cons, hk]
      rw [hkeep]
      by_cases h : k = u'
      · subst h
        simp [aGet, hk]
      · simp only [aGet, if_neg h]
        exact ih

/-- The workspace-table characterization: a `(uri, kind)` pair is listed
under `name` exactly when the live-contributions map holds a document at that
URI whose index contains a symbol with that name and kind. -/
def SLInv (sl : List (Text × List (Url × SymbolKind)))
    (live : List (Url × ParsedDocument)) : Prop :=
  ∀ (name : Text) (u : Url) (k : SymbolKind),
    (u, k) ∈ slGet sl name ↔
    ∃ d, aGet live u = some d ∧
      ∃ sym ∈ d.semantic_index.symbols, sym.name = name ∧ sym.kind = k

theorem SLInv_remove {sl : List (Text × List (Url × SymbolKind))}
    {live : List (Url × ParsedDocument)} (hnd : KeysNodup sl)
    (hinv : SLInv sl live) (uri : Url) :
    SLInv (removeUriLocations sl uri) (aRemove live uri) := by
  intro name u k
  rw [mem_slGet_removeUri hnd uri name (u, k), hinv name u k]
  constructor
  · rintro ⟨⟨d, hd, hsym⟩, hne⟩
    refine ⟨d, ?_, hsym⟩
    rw [aGet_aRemove, if_neg hne]
    exact hd
  · rintro ⟨d, hd, hsym⟩
    rw [aGet_aRemove] at hd
    by_cases h : u = uri
    · rw [if_pos h] at hd
      exact absurd hd (by simp)
    · rw [if_neg h] at hd
      exact ⟨⟨d, hd, hsym⟩, h⟩

theorem SLInv_upsert {sl : List (Text × List (Url × SymbolKind))}
    {live : List (Url × ParsedDocument)} (hnd : KeysNodup sl)
    (hinv : SLInv sl live) (uri : Url) (doc : ParsedDocument) :
    SLInv (doc.semantic_index.symbols.foldl
        (fun m sym => slPush m sym.name (uri, sym.kind)) (removeUriLocations sl uri))
      (aInsert live uri doc) := by
  intro name u k
  have hrm := SLInv_remove hnd hinv uri
  rw [slGet_foldl_slPush, List.mem_append]
  constructor
  · rintro (hin | hin)
    · obtain ⟨d, hd, hsym⟩ := (hrm name u k).mp hin
      rw [aGet_aRemove] at hd
      by_cases h : u = uri
      · rw [if_pos h] at hd
        exact absurd hd (by simp)
      · rw [if_neg h] at hd
        refine ⟨d, ?_, hsym⟩
        rw [aGet_aInsert, if_neg h]
        exact hd
    · simp only [List.mem_map, List.mem_filter] at hin
      obtain ⟨s, ⟨hs, hname⟩, heq⟩ := hin
      obtain ⟨rfl, rfl⟩ := Prod.mk.injEq .. |>.mp heq
      refine ⟨doc, ?_, s, hs, of_decide_eq_true hname, rfl⟩
      rw [aGet_aInsert, if_pos rfl]
  · rintro ⟨d, hd, s, hs, hsname, hskind⟩
    rw [aGet_aInsert] at hd
    by_cases h : u = uri
    · rw [if_pos h] at hd
      have hd' : doc = d := by injection hd
      subst hd'
      subst h
      right
      simp only [List.mem_map, List.mem_filter]
      exact ⟨s, ⟨hs, decide_eq_true hsname⟩, by rw [hskind]⟩
    · rw [if_neg h] at hd
      left
      refine (hrm name u k).mpr ⟨d, ?_, s, hs, hsname, hskind⟩
      rw [aGet_aRemove, if_neg h]
      exact hd

theorem runOpsFrom_inv (ops : List CacheOp) :
    ∀ (c : ProjectCache) (live : List (Url × ParsedDocument)),
      KeysNodup c.symbol_locations → SLInv c.symbol_locations live →
      KeysNodup (runOpsFrom c ops).symbol_locations ∧
      SLInv (runOpsFrom c ops).symbol_locations (liveFrom live ops) := by
  induction ops with
  | nil => intro c live h1 h2; exact ⟨h1, h2⟩
  | cons op rest ih =>
    intro c live h1 h2
    cases op with
    | upsert uri doc =>
      exact ih (update_document c uri doc) (aInsert live uri doc)
        (KeysNodup_foldl_slPush doc.semantic_index.symbols uri (KeysNodup_removeUri h1 uri))
        (SLInv_upsert h1 h2 uri doc)
    | removeSyms uri =>
      exact ih (remove_document_symbols c uri) (aRemove live uri)
        (KeysNodup_removeUri h1 uri) (SLInv_remove h1 h2 uri)

/-! ## Claim C4 -/

/-- Claim C4 as stated: after any sequence of upsert/remove operations,
looking a name up in the workspace symbol table yields exactly the
`(uri, kind)` pairs of the symbols with that name in the current documents
(the document-table contents). -/
def ClaimC4 : Prop :=
  ∀ (ops : List CacheOp) (name : Text) (u : Url) (k : SymbolKind),
    (u, k) ∈ get_symbol_locations (runOps ops) name ↔
    ∃ d, aGet (runOps ops).documents u = some d ∧
      ∃ sym ∈ d.semantic_index.symbols, sym.name = name ∧ sym.kind = k

/-- The pipeline's document record for an upserted `machine Main` file. -/
def docMain : ParsedDocument :=
  ⟨.ASM asmMainOnly, "machine Main".data, 0,
   build_semantic_index (.ASM asmMainOnly) "machine Main".data⟩

/-- A concrete document URI. -/
def uriA : Url := "file:///a.asm".data

/-- C4 fails on the code: `remove_document_symbols` purges the URI's entries
from the lookup table but leaves the document record in `documents`.  After
`upsert uriA docMain` followed by `removeSyms uriA`, the document table still
holds `docMain`, whose index contains a `Main` Machine symbol, yet
`get_symbol_locations` returns nothing for `Main`. -/
theorem C4_counterexample : ¬ ClaimC4 := by
  intro h
  have hx := (h [.upsert uriA docMain, .removeSyms uriA] "Main".data uriA .Machine).mpr
    ⟨docMain, by decide,
     ⟨.Machine, ⟨8, 12⟩, "Main".data, .Machine (some ⟨some 8, some 10⟩)⟩,
     by decide, rfl, rfl⟩
  exact absurd hx (by decide)

/-- C4 amended: lookup reflects exactly the live contributions — the
documents whose last operation was an upsert (a `removeSyms` drops a
document's contributions from lookup without dropping its record, so the
document table itself can disagree with lookup after a removal). -/
theorem C4_amended (ops : List CacheOp) (name : Text) (u : Url) (k : SymbolKind) :
    (u, k) ∈ get_symbol_locations (runOps ops) name ↔
    ∃ d, aGet (liveDocs ops) u = some d ∧
      ∃ sym ∈ d.semantic_index.symbols, sym.name = name ∧ sym.kind = k := by
  have base1 : KeysNodup ProjectCache.new.symbol_locations := by
    simp [ProjectCache.new, KeysNodup]
  have base2 : SLInv ProjectCache.new.symbol_locations [] := by
    intro name u k
    simp [ProjectCache.new, slGet, aGet]
  exact (runOpsFrom_inv ops ProjectCache.new [] base1 base2).2 name u k

/-- Witness for the amended C4 after one concrete upsert and removal. -/
theorem C4_amended_witness :
    ((uriA, SymbolKind.Machine) ∈
      get_symbol_locations (runOps [.upsert uriA docMain, .removeSyms uriA]) "Main".data) ↔
    ∃ d, aGet (liveDocs [.upsert uriA docMain, .removeSyms uriA]) uriA = some d ∧
      ∃ sym ∈ d.semantic_index.symbols, sym.name = "Main".data ∧
        sym.kind = SymbolKind.Machine :=
  C4_amended [.upsert uriA docMain, .removeSyms uriA] "Main".data uriA .Machine

/-! ## Claim C10 -/

theorem vals_nonempty_removeUri (m : List (Text × List (Url × SymbolKind)))
    (uri : Url) : ∀ e ∈ removeUriLocations m uri, e.2 ≠ [] := by
  intro e he
  unfold removeUriLocations at he
  have h2 := (List.mem_filter.mp he).2
  exact of_decide_eq_true h2

theorem vals_nonempty_slPush {m : List (Text × List (Url × SymbolKind))}
    (h : ∀ e ∈ m, e.2 ≠ []) (n : Text) (x : Url × SymbolKind) :
    ∀ e ∈ slPush m n x, e.2 ≠ [] := by
  induction m with
  | nil =>
    intro e he
    rw [show slPush [] n x = [(n, [x])] from rfl] at he
    rcases List.mem_cons.mp he with rfl | hf
    · simp
    · exact absurd hf (List.not_mem_nil e)
  | cons p rest ih =>
    obtain ⟨k, locs⟩ := p
    intro e he
    by_cases hk : k = n
    · subst hk
      rw [slPush_cons_self] at he
      rcases List.mem_cons.mp he with rfl | hf
      · simp
      · exact h e (List.mem_cons_of_mem _ hf)
    · rw [slPush_cons_ne hk] at he
      rcases List.mem_cons.mp he with rfl | hf
      · exact h (k, locs) (List.mem_cons_self ..)
      · exact ih (fun e' he' => h e' (List.mem_cons_of_mem _ he')) e hf

theorem vals_nonempty_foldl_slPush (syms : List Symbol) (uri : Url) :
    ∀ {m0}, (∀ e ∈ m0, e.2 ≠ []) →
      ∀ e ∈ syms.foldl (fun m sym => slPush m sym.name (uri, sym.kind)) m0, e.2 ≠ [] := by
  induction syms with
  | nil => intro m0 h; exact h
  | cons s rest ih =>
    intro m0 h
    exact ih (vals_nonempty_slPush h s.name (uri, s.kind))

theorem runOpsFrom_vals_nonempty (ops : List CacheOp) :
    ∀ (c : ProjectCache), (∀ e ∈ c.symbol_locations, e.2 ≠ []) →
      ∀ e ∈ (runOpsFrom c ops).symbol_locations, e.2 ≠ [] := by
  induction ops with
  | nil => intro c h; exact h
  | cons op rest ih =>
    intro c h
    cases op with
    | upsert uri doc =>
      exact ih (update_document c uri doc)
        (vals_nonempty_foldl_slPush doc.semantic_index.symbols uri
          (vals_nonempty_removeUri c.symbol_locations uri))
    | removeSyms uri =>
      exact ih (remove_document_symbols c uri)
        (vals_nonempty_removeUri c.symbol_locations uri)

/-- Claim C10: after any operation sequence, every key in the workspace
locations map holds a non-empty location list (removals prune emptied keys,
insertions create keys only together with an entry), and looking up a name
that is not a key yields the empty list. -/
theorem C10_nonempty_values (ops : List CacheOp) :
    (∀ e ∈ (runOps ops).symbol_locations, e.2 ≠ []) ∧
    (∀ name : Text, (∀ e ∈ (runOps ops).symbol_locations, e.1 ≠ name) →
      get_symbol_locations (runOps ops) name = []) :=
  ⟨runOpsFrom_vals_nonempty ops ProjectCache.new (by simp [ProjectCache.new]),
   fun _ h => slGet_eq_nil_of_no_key h⟩

/-- Witness for C10 after one concrete upsert. -/
theorem C10_witness :
    ([(uriA, SymbolKind.Machine)] ≠ ([] : List (Url × SymbolKind))) ∧
    get_symbol_locations (runOps [.upsert uriA docMain]) "zzz".data = [] :=
  ⟨(C10_nonempty_values [.upsert uriA docMain]).1
     ("::Main".data, [(uriA, SymbolKind.Machine)]) (by decide),
   (C10_nonempty_values [.upsert uriA docMain]).2 "zzz".data (by decide)⟩

end PowdrLsp
